import Mathlib

/-!
Shallow embedding of `scripts/cr_transcripts.py`.

The script defines two streaming markup extractors built on the standard
library event-driven markup tokenizer: `CRIndexParser`, which collects
transcript file links from an index page, and `CRTranscriptParser`, which
reconstructs (speaker, utterance) records from a transcript page, plus a
rendering loop in `main` that writes the records out.

The external tokenizer is modelled as a stream of structural events
(tag-open, tag-close, text-data); each extractor is a state plus a step
function over events, translated handler by handler from the source.
-/

/-- One structural parse event delivered by the external markup tokenizer:
a tag-open with its attribute list (attribute values may be absent, as the
tokenizer reports valueless attributes with a `None` value), a tag-close,
or a run of text data. -/
inductive Event where
  | startTag (tag : String) (attrs : List (String × Option String))
  | endTag (tag : String)
  | data (d : String)
deriving DecidableEq

/-- Embedding of `dict(attrs).get(key)`: building a dict from a pair list
keeps the LAST binding of each key, and `.get` yields `none` when the key
is absent.  The outer `Option` is absence of the key; the inner `Option`
is the valueless-attribute case. -/
def dictGet (attrs : List (String × Option String)) (k : String) :
    Option (Option String) :=
  attrs.foldl (fun acc p => if p.1 = k then some p.2 else acc) none

/-- Embedding of `set.add`: the accumulated collection of hrefs is a
mathematical set, so adding keeps membership idempotent.  We represent the
set as a duplicate-free-by-construction list. -/
def setAdd (l : List String) (x : String) : List String :=
  if x ∈ l then l else l ++ [x]

/-- The tail admitted by the regex anchor `$` without MULTILINE: the match
may end at the end of the string or just before one final newline. -/
def tailNL (t : List Char) : Bool :=
  match t with
  | [] => true
  | [c] => c == '\n'
  | _ => false

/-- Matcher for the regex fragment `\.html$`: the literal characters
`.html` followed by a tail the `$` anchor accepts. -/
def htmlSuffix (cs : List Char) : Bool :=
  match cs with
  | a :: b :: c :: d :: e :: rest =>
      (a == '.') && (b == 'h') && (c == 't') && (d == 'm') && (e == 'l')
        && tailNL rest
  | _ => false

/-- Matcher for the regex fragment `.+\.html$`: one or more characters,
none of them a newline (`.` does not match a newline), followed by the
suffix part. -/
def dotPlusHtml : List Char → Bool
  | [] => false
  | c :: cs => !(c == '\n') && (htmlSuffix cs || dotPlusHtml cs)

/-- Embedding of `TRANSCRIPT_RE.match(href)` for
`TRANSCRIPT_RE = re.compile(r"^cr.+\.html$")`: `re.match` anchors at the
start of the string, `cr` is literal, `.+` is one or more non-newline
characters, `\.html` is literal, and `$` matches at the end of the string
or just before a final newline. -/
def reMatchTranscript (s : String) : Bool :=
  match s.data with
  | a :: b :: rest => (a == 'c') && (b == 'r') && dotPlusHtml rest
  | _ => false

/-- Parser state of `CRIndexParser`: the `in_main` flag and the
accumulated set `transcript_files` of matching hrefs. -/
structure IndexState where
  in_main : Bool
  transcript_files : List String
deriving DecidableEq

/-- Embedding of `CRIndexParser.handle_starttag`: a `main` open tag sets
`in_main`; otherwise an `a` tag seen while `in_main` has its `href`
attribute (last binding, possibly valueless) tested against the regex and
added to the set on a match. -/
def IndexState.handleStart (s : IndexState) (tag : String)
    (attrs : List (String × Option String)) : IndexState :=
  if tag = "main" then ⟨true, s.transcript_files⟩
  else if tag = "a" ∧ s.in_main = true then
    match dictGet attrs "href" with
    | some (some href) =>
        if reMatchTranscript href = true then
          ⟨s.in_main, setAdd s.transcript_files href⟩
        else s
    | _ => s
  else s

/-- Embedding of `CRIndexParser.handle_endtag`: a `main` close tag clears
`in_main`; every other close tag is ignored. -/
def IndexState.handleEnd (s : IndexState) (tag : String) : IndexState :=
  if tag = "main" then ⟨false, s.transcript_files⟩ else s

/-- One tokenizer event dispatched to `CRIndexParser`: the class overrides
only the start-tag and end-tag handlers, so text data leaves its state
unchanged. -/
def IndexState.step (s : IndexState) : Event → IndexState
  | .startTag t a => s.handleStart t a
  | .endTag t => s.handleEnd t
  | .data _ => s

/-- Feeding a whole event stream to `CRIndexParser`. -/
def IndexState.run (s : IndexState) (es : List Event) : IndexState :=
  es.foldl IndexState.step s

/-- One emitted transcript record, the dict built by
`CRTranscriptParser.handle_data`: a `name` key set when the record is
appended in the speaker branch, and a `text` key set or extended later by
the dialogue branch. -/
structure TranscriptLine where
  name : Option String
  text : Option String
deriving DecidableEq

/-- ASCII whitespace stripping on a character list: drop whitespace from
the front, then from the back. -/
def stripChars (cs : List Char) : List Char :=
  ((cs.dropWhile Char.isWhitespace).reverse.dropWhile Char.isWhitespace).reverse

/-- Embedding of Python `str.strip()` with no argument: remove leading and
trailing whitespace.  (Python also strips some non-ASCII Unicode
whitespace; the inputs relevant here are ASCII.) -/
def pyStrip (s : String) : String := ⟨stripChars s.data⟩

/-- Python truthiness of the `self.process` attribute, which is either
`None` or a string: `None` and the empty string are falsy. -/
def pyTruthy : Option String → Bool
  | none => false
  | some s => !s.data.isEmpty

/-- Embedding of the in-place update of `cur_dat` in the dialogue branch:
if the record already has a `text` value, append the freshly stripped data
separated by one space, otherwise set `text` to the stripped data. -/
def setText (r : TranscriptLine) (d : String) : TranscriptLine :=
  match r.text with
  | some t => ⟨r.name, some (t ++ " " ++ pyStrip d)⟩
  | none => ⟨r.name, some (pyStrip d)⟩

/-- Parser state of `CRTranscriptParser`: the `in_lines` flag, the
accumulated record list `lines`, and the pending field `process`
(`None`, `"name"` or `"text"`). -/
structure TState where
  in_lines : Bool
  lines : List TranscriptLine
  process : Option String
deriving DecidableEq

/-- Embedding of `CRTranscriptParser.handle_starttag`: a `div` open tag
carrying the exact attribute pair `("id", "lines")` sets `in_lines`;
inside the lines region a `strong` tag routes the next data to the speaker
name and a `dd` tag routes it to the dialogue text; every other tag leaves
the state unchanged. -/
def TState.handleStart (s : TState) (tag : String)
    (attrs : List (String × Option String)) : TState :=
  if tag = "div" ∧ ("id", some "lines") ∈ attrs then
    ⟨true, s.lines, s.process⟩
  else if tag = "strong" ∧ s.in_lines = true then
    ⟨s.in_lines, s.lines, some "name"⟩
  else if tag = "dd" ∧ s.in_lines = true then
    ⟨s.in_lines, s.lines, some "text"⟩
  else s

/-- Embedding of `CRTranscriptParser.handle_data`.  When `self.process` is
truthy: the `"name"` branch appends a fresh record with the stripped data
as speaker; the `"text"` branch takes `self.lines[-1] if self.lines else
\x7b\x7d` — so with no record the update lands on a throwaway dict and is
discarded — and otherwise sets or extends the text of the last record.
The final statement of the handler sets `self.process = None`
unconditionally, and the `in_lines` flag is never touched here. -/
def TState.handleData (s : TState) (d : String) : TState :=
  let newLines :=
    if pyTruthy s.process then
      if s.process = some "name" then
        s.lines ++ [⟨some (pyStrip d), none⟩]
      else if s.process = some "text" then
        match s.lines.getLast? with
        | some cur => s.lines.dropLast ++ [setText cur d]
        | none => s.lines
      else s.lines
    else s.lines
  ⟨s.in_lines, newLines, none⟩

/-- One tokenizer event dispatched to `CRTranscriptParser`: the class
overrides the start-tag and data handlers only, so close tags leave its
state unchanged. -/
def TState.step (s : TState) : Event → TState
  | .startTag t a => s.handleStart t a
  | .endTag _ => s
  | .data d => s.handleData d

/-- Feeding a whole event stream to `CRTranscriptParser`. -/
def TState.run (s : TState) (es : List Event) : TState :=
  es.foldl TState.step s

/-- Rendering of one record by the output loop in `main`: a bold speaker
marker when names are enabled and the record has a `name` key, then the
text followed by a newline when the record has a `text` key. -/
def renderLine (includeNames : Bool) (r : TranscriptLine) : String :=
  (match includeNames, r.name with
   | true, some n => "**" ++ n ++ "**: "
   | _, _ => "")
  ++ (match r.text with
      | some t => t ++ "\n"
      | none => "")

/-- Rendering of the whole record list, concatenated in order as `main`
writes it to the output file. -/
def render (includeNames : Bool) (ls : List TranscriptLine) : String :=
  String.join (ls.map (renderLine includeNames))

/-! ### Helper lemmas about the embedded operations -/

lemma pyTruthy_name : pyTruthy (some "name") = true := by decide

lemma pyTruthy_text : pyTruthy (some "text") = true := by decide

lemma pyTruthy_none : pyTruthy none = false := rfl

lemma handleStart_strong_inLines (L : List TranscriptLine) (p : Option String) :
    TState.handleStart ⟨true, L, p⟩ "strong" [] = ⟨true, L, some "name"⟩ := rfl

lemma handleStart_dd_inLines (L : List TranscriptLine) (p : Option String) :
    TState.handleStart ⟨true, L, p⟩ "dd" [] = ⟨true, L, some "text"⟩ := rfl

lemma handleStart_linesDiv (il : Bool) (L : List TranscriptLine)
    (p : Option String) :
    TState.handleStart ⟨il, L, p⟩ "div" [("id", some "lines")] = ⟨true, L, p⟩ := rfl

lemma handleData_nameBranch (il : Bool) (L : List TranscriptLine) (d : String) :
    TState.handleData ⟨il, L, some "name"⟩ d
      = ⟨il, L ++ [⟨some (pyStrip d), none⟩], none⟩ := rfl

lemma handleData_textBranch (il : Bool) (L : List TranscriptLine)
    (r : TranscriptLine) (d : String) :
    TState.handleData ⟨il, L ++ [r], some "text"⟩ d
      = ⟨il, L ++ [setText r d], none⟩ := by
  simp [TState.handleData, pyTruthy_text, List.getLast?_concat, List.dropLast_concat]

lemma run_cons (s : TState) (e : Event) (es : List Event) :
    TState.run s (e :: es) = TState.run (TState.step s e) es := rfl

lemma setText_noText (nm : Option String) (d : String) :
    setText ⟨nm, none⟩ d = ⟨nm, some (pyStrip d)⟩ := rfl

lemma setText_withText (nm : Option String) (t d : String) :
    setText ⟨nm, some t⟩ d = ⟨nm, some (t ++ " " ++ pyStrip d)⟩ := rfl

/-! ### Claims -/

/-- Claim C1: feeding the event sequence of the worked example — the lines
container open tag, Name marker `Matt`, Text marker `Welcome back.`, Name
marker `Laura`, Text marker `Thanks!`, and a second Text marker
`Let's go.` — to the Transcript Extractor yields exactly the two
records of the example, and rendering them with names enabled yields
exactly the example output string. -/
theorem transcript_example_pipeline :
    (TState.run ⟨false, [], none⟩
      [.startTag "div" [("id", some "lines")],
       .startTag "strong" [], .data "Matt",
       .startTag "dd" [], .data "Welcome back.",
       .startTag "strong" [], .data "Laura",
       .startTag "dd" [], .data "Thanks!",
       .startTag "dd" [], .data "Let's go."]).lines
      = [⟨some "Matt", some "Welcome back."⟩,
         ⟨some "Laura", some "Thanks! Let's go."⟩]
    ∧ render true
        (TState.run ⟨false, [], none⟩
          [.startTag "div" [("id", some "lines")],
           .startTag "strong" [], .data "Matt",
           .startTag "dd" [], .data "Welcome back.",
           .startTag "strong" [], .data "Laura",
           .startTag "dd" [], .data "Thanks!",
           .startTag "dd" [], .data "Let's go."]).lines
      = "**Matt**: Welcome back.\n**Laura**: Thanks! Let's go.\n" := by
  constructor <;> decide

/-- Claim C2: inside the lines region, a Name event followed by two Text
events, each introduced by its own dialogue-marker open tag, appends
exactly one record for that speaker whose text is the first event data
stripped, one space, and the second event data stripped. -/
theorem transcript_merge_two_text_events (L : List TranscriptLine)
    (p : Option String) (n t1 t2 : String) :
    TState.run ⟨true, L, p⟩
      [.startTag "strong" [], .data n,
       .startTag "dd" [], .data t1,
       .startTag "dd" [], .data t2]
      = ⟨true, L ++ [⟨some (pyStrip n),
          some (pyStrip t1 ++ " " ++ pyStrip t2)⟩], none⟩ := by
  rw [run_cons, run_cons, run_cons, run_cons, run_cons, run_cons]
  show TState.run
    (TState.handleData
      (TState.handleStart
        (TState.handleData
          (TState.handleStart
            (TState.handleData (TState.handleStart ⟨true, L, p⟩ "strong" []) n)
            "dd" []) t1)
        "dd" []) t2) [] = _
  rw [handleStart_strong_inLines, handleData_nameBranch, handleStart_dd_inLines,
    handleData_textBranch, setText_noText, handleStart_dd_inLines,
    handleData_textBranch, setText_withText]
  rfl

/-- Claim C3: inside the lines region, two consecutive Name events with no
intervening Text event append two separate records, each with its speaker
set and no text field set. -/
theorem transcript_consecutive_name_events (L : List TranscriptLine)
    (p : Option String) (n1 n2 : String) :
    TState.run ⟨true, L, p⟩
      [.startTag "strong" [], .data n1,
       .startTag "strong" [], .data n2]
      = ⟨true, L ++ [⟨some (pyStrip n1), none⟩, ⟨some (pyStrip n2), none⟩],
         none⟩ := by
  rw [run_cons, run_cons, run_cons, run_cons]
  show TState.run
    (TState.handleData
      (TState.handleStart
        (TState.handleData (TState.handleStart ⟨true, L, p⟩ "strong" []) n1)
        "strong" []) n2) [] = _
  rw [handleStart_strong_inLines, handleData_nameBranch,
    handleStart_strong_inLines, handleData_nameBranch]
  simp [TState.run]

/-- Claim C4: after the Transcript Extractor consumes any text-data event
the pending field `process` is `none`, whichever branch fired, and a
second text-data event arriving before the next open tag leaves the whole
parser state, record list included, unchanged. -/
theorem transcript_process_reset_after_data (s : TState) (d d2 : String) :
    (TState.step s (.data d)).process = none
    ∧ TState.step (TState.step s (.data d)) (.data d2)
        = TState.step s (.data d) := by
  exact ⟨rfl, rfl⟩

/-- Claim C7: a Text event arriving while the record list is empty is
silently discarded — the throwaway dict the source builds in that case
never reaches the list — and any text-data event arriving while the
pending field is `none` leaves the record list unchanged; in both cases
the only effect is that the pending field ends up `none`. -/
theorem transcript_unattributed_text_discarded (il : Bool)
    (L : List TranscriptLine) (d : String) :
    TState.step ⟨il, [], some "text"⟩ (.data d) = ⟨il, [], none⟩
    ∧ TState.step ⟨il, L, none⟩ (.data d) = ⟨il, L, none⟩ := by
  exact ⟨rfl, rfl⟩

/-- Whether an event is the open tag of the lines container: a `div` tag
carrying the attribute pair `("id", "lines")`. -/
def isLinesOpen : Event → Bool
  | .startTag tag attrs => decide (tag = "div" ∧ ("id", some "lines") ∈ attrs)
  | _ => false

lemma run_initT_no_container (es : List Event)
    (h : ∀ e ∈ es, isLinesOpen e = false) :
    TState.run ⟨false, [], none⟩ es = ⟨false, [], none⟩ := by
  induction es with
  | nil => rfl
  | cons e es ih =>
    have he := h e (List.mem_cons_self e es)
    have hs : TState.step ⟨false, [], none⟩ e = ⟨false, [], none⟩ := by
      cases e with
      | startTag t a =>
        simp only [isLinesOpen, decide_eq_false_iff_not] at he
        simp [TState.step, TState.handleStart, he]
      | endTag t => rfl
      | data d => rfl
    rw [run_cons, hs]
    exact ih fun e' he' => h e' (List.mem_cons_of_mem e he')

/-- Claim C8: on any input document in which the lines container open tag
never appears, the Transcript Extractor returns an empty record list. -/
theorem transcript_no_container_empty (es : List Event)
    (h : ∀ e ∈ es, isLinesOpen e = false) :
    (TState.run ⟨false, [], none⟩ es).lines = [] := by
  rw [run_initT_no_container es h]

/-- Witness for claim C8 at a concrete document with stray tags and text
but no lines container. -/
theorem transcript_no_container_empty_witness :
    (∀ e ∈ ([.startTag "p" [], .startTag "strong" [], .data "hello",
        .endTag "p"] : List Event), isLinesOpen e = false)
    ∧ (TState.run ⟨false, [], none⟩
        [.startTag "p" [], .startTag "strong" [], .data "hello",
         .endTag "p"]).lines = [] :=
  ⟨by decide, transcript_no_container_empty _ (by decide)⟩

/-! ### Claim C10: every record carries a speaker -/

lemma setText_name (r : TranscriptLine) (d : String) :
    (setText r d).name = r.name := by
  cases r with
  | mk nm tx => cases tx <;> rfl

lemma handleStart_lines (s : TState) (t : String)
    (a : List (String × Option String)) :
    (TState.handleStart s t a).lines = s.lines := by
  unfold TState.handleStart
  split
  · rfl
  · split
    · rfl
    · split <;> rfl

lemma mem_of_getLastEq {α : Type} {l : List α} {x : α}
    (h : l.getLast? = some x) : x ∈ l := by
  obtain ⟨hne, rfl⟩ := List.mem_getLast?_eq_getLast (Option.mem_def.mpr h)
  exact List.getLast_mem hne

lemma names_ok_handleData (s : TState) (d : String)
    (h : ∀ r ∈ s.lines, r.name.isSome = true) :
    ∀ r ∈ (TState.handleData s d).lines, r.name.isSome = true := by
  intro r hr
  unfold TState.handleData at hr
  dsimp only at hr
  split at hr
  · split at hr
    · rcases List.mem_append.mp hr with hmem | hmem
      · exact h r hmem
      · rw [List.mem_singleton.mp hmem]
        rfl
    · split at hr
      · split at hr
        · rename_i cur hcur
          rcases List.mem_append.mp hr with hmem | hmem
          · exact h r (List.dropLast_subset s.lines hmem)
          · rw [List.mem_singleton.mp hmem, setText_name]
            exact h cur (mem_of_getLastEq hcur)
        · exact h r hr
      · exact h r hr
  · exact h r hr

lemma names_ok_run (es : List Event) : ∀ (s : TState),
    (∀ r ∈ s.lines, r.name.isSome = true) →
    ∀ r ∈ (TState.run s es).lines, r.name.isSome = true := by
  induction es with
  | nil => intro s h; exact h
  | cons e es ih =>
    intro s h
    rw [run_cons]
    apply ih
    cases e with
    | startTag t a =>
      intro r hr
      rw [show (TState.step s (.startTag t a)).lines
          = (TState.handleStart s t a).lines from rfl, handleStart_lines] at hr
      exact h r hr
    | endTag t => exact h
    | data d => exact names_ok_handleData s d h

/-- Claim C10: every record in the Transcript Extractor result has its
speaker field set — records are appended only by Name events and Text
events only modify an already appended record — even though the record
type leaves the speaker optional. -/
theorem transcript_records_have_speaker (es : List Event)
    (r : TranscriptLine)
    (hr : r ∈ (TState.run ⟨false, [], none⟩ es).lines) :
    r.name.isSome = true :=
  names_ok_run es ⟨false, [], none⟩ (by simp) r hr

/-- Witness for claim C10 at a concrete parse producing one record. -/
theorem transcript_records_have_speaker_witness :
    ((⟨some "Matt", none⟩ : TranscriptLine)
      ∈ (TState.run ⟨false, [], none⟩
          ([.startTag "div" [("id", some "lines")],
            .startTag "strong" [], .data "Matt"] : List Event)).lines)
    ∧ (⟨some "Matt", none⟩ : TranscriptLine).name.isSome = true :=
  ⟨by decide,
   transcript_records_have_speaker
     [.startTag "div" [("id", some "lines")],
      .startTag "strong" [], .data "Matt"]
     ⟨some "Matt", none⟩ (by decide)⟩

/-! ### Claim C9: the guarded last-record access never fails -/

/-- Embedding of the Python expression `self.lines[-1]` as a fallible
operation: indexing an empty list raises `IndexError`. -/
def idxLast (l : List TranscriptLine) : Except String TranscriptLine :=
  match l.getLast? with
  | some x => Except.ok x
  | none => Except.error "IndexError: list index out of range"

/-- Re-embedding of `CRTranscriptParser.handle_data` in an error monad, in
which the one partial operation the source performs — the `lines[-1]`
access, guarded by `if self.lines` — is fallible exactly as in Python. -/
def TState.handleDataE (s : TState) (d : String) : Except String TState :=
  if pyTruthy s.process then
    if s.process = some "name" then
      Except.ok ⟨s.in_lines, s.lines ++ [⟨some (pyStrip d), none⟩], none⟩
    else if s.process = some "text" then
      if s.lines = [] then Except.ok ⟨s.in_lines, s.lines, none⟩
      else
        (idxLast s.lines).bind fun cur =>
          Except.ok ⟨s.in_lines, s.lines.dropLast ++ [setText cur d], none⟩
    else Except.ok ⟨s.in_lines, s.lines, none⟩
  else Except.ok ⟨s.in_lines, s.lines, none⟩

/-- Event dispatch for the error-monad model: the start-tag and end-tag
paths of both extractors perform no partial operation, so only the data
handler is fallible. -/
def TState.stepE (s : TState) : Event → Except String TState
  | .startTag t a => Except.ok (s.handleStart t a)
  | .endTag _ => Except.ok s
  | .data d => s.handleDataE d

/-- Feeding a whole event stream in the error-monad model, stopping at the
first raised error. -/
def TState.runE : TState → List Event → Except String TState
  | s, [] => Except.ok s
  | s, e :: es => (TState.stepE s e).bind fun s2 => TState.runE s2 es

lemma handleDataE_ok (s : TState) (d : String) :
    TState.handleDataE s d = Except.ok (TState.handleData s d) := by
  unfold TState.handleDataE TState.handleData
  dsimp only
  split
  · split
    · rfl
    · split
      · split
        · rename_i hnil
          rw [hnil]
          rfl
        · rename_i hnil
          cases hgl : s.lines.getLast? with
          | none => exact absurd (List.getLast?_eq_none_iff.mp hgl) hnil
          | some cur =>
            rw [idxLast, hgl]
            rfl
      · rfl
  · rfl

lemma stepE_ok (s : TState) (e : Event) :
    TState.stepE s e = Except.ok (TState.step s e) := by
  cases e with
  | startTag t a => rfl
  | endTag t => rfl
  | data d => exact handleDataE_ok s d

/-- Claim C9: the error-monad model of the Transcript Extractor never
returns an error on any event stream — in particular the `lines[-1]`
access in the Text branch is guarded and cannot fail — and it computes the
same final state as the total model.  (The Index Extractor performs no
partial operation at all: its attribute lookup is a total dictionary
`get`, so its embedding `IndexState.step` is already total.) -/
theorem transcript_runE_never_errors (s : TState) (es : List Event) :
    TState.runE s es = Except.ok (TState.run s es) := by
  induction es generalizing s with
  | nil => rfl
  | cons e es ih =>
    show (TState.stepE s e).bind (fun s2 => TState.runE s2 es) = _
    rw [stepE_ok]
    show TState.runE (TState.step s e) es = _
    rw [ih, run_cons]

/-! ### Claims C5 and C6: the Index Extractor -/

/-- Whether one event makes the Index Extractor collect the href `f`:
the event is an anchor open tag seen while `in_main` holds (the flag state
just before the event), its last `href` binding carries the value `f`, and
`f` matches the transcript filename regex. -/
def anchorAdds (m : Bool) (e : Event) (f : String) : Bool :=
  match e with
  | .startTag tag attrs =>
      if m = true ∧ tag = "a" ∧ dictGet attrs "href" = some (some f) then
        reMatchTranscript f
      else false
  | _ => false

/-- The value of the `in_main` flag after one event, as the spec words it:
set by the open tag of the main region, cleared by its close tag,
last-writer-wins. -/
def mainAfter (m : Bool) (e : Event) : Bool :=
  match e with
  | .startTag tag _ => if tag = "main" then true else m
  | .endTag tag => if tag = "main" then false else m
  | .data _ => m

/-- Whether a matching anchor for `f` occurs somewhere in the event
stream while the parser is inside the main region, tracking the region
flag from the given starting value. -/
def hitInMain (m : Bool) (f : String) : List Event → Bool
  | [] => false
  | e :: es => anchorAdds m e f || hitInMain (mainAfter m e) f es

lemma mem_setAdd (l : List String) (x f : String) :
    f ∈ setAdd l x ↔ f = x ∨ f ∈ l := by
  unfold setAdd
  split
  · rename_i hx
    constructor
    · exact Or.inr
    · rintro (rfl | hf)
      · exact hx
      · exact hf
  · simp [List.mem_append, or_comm]

lemma in_main_step (s : IndexState) (e : Event) :
    (IndexState.step s e).in_main = mainAfter s.in_main e := by
  cases e with
  | data d => rfl
  | endTag t =>
    by_cases ht : t = "main" <;>
      simp [IndexState.step, IndexState.handleEnd, mainAfter, ht]
  | startTag t a =>
    by_cases ht : t = "main"
    · simp [IndexState.step, IndexState.handleStart, mainAfter, ht]
    · simp only [IndexState.step, IndexState.handleStart, mainAfter, if_neg ht]
      split
      · split
        · split <;> rfl
        · rfl
      · rfl

lemma mem_files_step (s : IndexState) (e : Event) (f : String) :
    f ∈ (IndexState.step s e).transcript_files ↔
      f ∈ s.transcript_files ∨ anchorAdds s.in_main e f = true := by
  cases e with
  | data d => simp [IndexState.step, anchorAdds]
  | endTag t =>
    show f ∈ (IndexState.handleEnd s t).transcript_files ↔ _
    unfold IndexState.handleEnd anchorAdds
    split <;> simp
  | startTag t a =>
    show f ∈ (IndexState.handleStart s t a).transcript_files ↔ _
    by_cases ht : t = "main"
    · subst ht
      simp [IndexState.handleStart, anchorAdds]
    · by_cases hta : t = "a"
      · subst hta
        by_cases hm : s.in_main = true
        · cases hdg : dictGet a "href" with
          | none => simp [IndexState.handleStart, anchorAdds, ht, hm, hdg]
          | some v =>
            cases v with
            | none => simp [IndexState.handleStart, anchorAdds, ht, hm, hdg]
            | some href =>
              by_cases hre : reMatchTranscript href = true
              · by_cases hf : f = href
                · subst hf
                  simp [IndexState.handleStart, anchorAdds, ht, hm, hdg, hre,
                    mem_setAdd]
                · simp [IndexState.handleStart, anchorAdds, ht, hm, hdg, hre,
                    mem_setAdd, hf]
                  intro h
                  exact absurd h.symm hf
              · by_cases hf : f = href
                · subst hf
                  simp [IndexState.handleStart, anchorAdds, ht, hm, hdg, hre]
                · simp [IndexState.handleStart, anchorAdds, ht, hm, hdg, hre]
                  intro h
                  exact absurd h.symm hf
        · simp [IndexState.handleStart, anchorAdds, ht, hm]
      · simp [IndexState.handleStart, anchorAdds, ht, hta]

lemma mem_files_run (es : List Event) : ∀ (s : IndexState) (f : String),
    f ∈ (IndexState.run s es).transcript_files ↔
      f ∈ s.transcript_files ∨ hitInMain s.in_main f es = true := by
  induction es with
  | nil => intro s f; simp [IndexState.run, hitInMain]
  | cons e es ih =>
    intro s f
    rw [show IndexState.run s (e :: es)
        = IndexState.run (IndexState.step s e) es from rfl]
    rw [ih, mem_files_step, in_main_step, hitInMain]
    simp [Bool.or_eq_true, or_assoc]

/-- Claim C5: starting from the initial state, a filename is in the Index
Extractor result set if and only if a matching anchor bearing it occurs
while the parser is inside the main region; in particular a matching link
outside the main region is never collected. -/
theorem index_link_collected_iff_hit_in_main (es : List Event) (f : String) :
    f ∈ (IndexState.run ⟨false, []⟩ es).transcript_files
      ↔ hitInMain false f es = true := by
  rw [mem_files_run]
  simp

/-- The test claim C6 describes, written from its words: the target starts
with the literal two-character prefix and ends with the fixed five
character extension, case-sensitively, anchored at both ends. -/
def startEndPattern (s : String) : Bool :=
  (['c', 'r'].isPrefixOf s.data) && (['.', 'h', 't', 'm', 'l'].isSuffixOf s.data)

/-- Counterexample to claim C6 as stated: the target `cr.html` starts with
the literal prefix and ends with the fixed extension, yet the Index
Extractor inside the main region does not add it, because the regex
requires at least one character between prefix and extension. -/
theorem index_pattern_start_end_counterexample :
    startEndPattern "cr.html" = true
    ∧ "cr.html" ∉ (IndexState.step ⟨true, []⟩
        (.startTag "a" [("href", some "cr.html")])).transcript_files := by
  constructor <;> decide

/-- The corrected declarative membership test: the target is the literal
prefix `cr`, then at least one character none of which is a newline, then
the extension `.html`, optionally followed by one trailing newline. -/
def matchesAmended (s : String) : Prop :=
  ∃ mid t, s.data = 'c' :: 'r' :: (mid ++ ('.' :: 'h' :: 't' :: 'm' :: 'l' :: t))
    ∧ mid ≠ [] ∧ '\n' ∉ mid ∧ (t = [] ∨ t = ['\n'])

lemma tailNL_iff (t : List Char) : tailNL t = true ↔ t = [] ∨ t = ['\n'] := by
  rcases t with _ | ⟨c, _ | ⟨c2, t'⟩⟩ <;> simp [tailNL]

lemma htmlSuffix_iff (cs : List Char) : htmlSuffix cs = true ↔
    ∃ t, cs = '.' :: 'h' :: 't' :: 'm' :: 'l' :: t ∧ (t = [] ∨ t = ['\n']) := by
  rcases cs with _ | ⟨a, _ | ⟨b, _ | ⟨c, _ | ⟨d, _ | ⟨e, rest⟩⟩⟩⟩⟩
  · simp [htmlSuffix]
  · simp [htmlSuffix]
  · simp [htmlSuffix]
  · simp [htmlSuffix]
  · simp [htmlSuffix]
  · constructor
    · intro h
      simp only [htmlSuffix, Bool.and_eq_true, beq_iff_eq, tailNL_iff] at h
      obtain ⟨⟨⟨⟨⟨rfl, rfl⟩, rfl⟩, rfl⟩, rfl⟩, ht⟩ := h
      exact ⟨rest, rfl, ht⟩
    · rintro ⟨t, heq, ht⟩
      simp only [List.cons.injEq] at heq
      obtain ⟨rfl, rfl, rfl, rfl, rfl, rfl⟩ := heq
      rcases ht with rfl | rfl <;> rfl

lemma dotPlusHtml_iff (cs : List Char) : dotPlusHtml cs = true ↔
    ∃ mid t, cs = mid ++ ('.' :: 'h' :: 't' :: 'm' :: 'l' :: t)
      ∧ mid ≠ [] ∧ '\n' ∉ mid ∧ (t = [] ∨ t = ['\n']) := by
  induction cs with
  | nil =>
    refine ⟨fun h => absurd h (by simp [dotPlusHtml]), ?_⟩
    rintro ⟨mid, t, h, hne, -, -⟩
    exact absurd (List.append_eq_nil.mp h.symm).1 hne
  | cons a cs ih =>
    rw [show dotPlusHtml (a :: cs)
        = (!(a == '\n') && (htmlSuffix cs || dotPlusHtml cs)) from rfl]
    simp only [Bool.and_eq_true, Bool.or_eq_true, Bool.not_eq_true',
      beq_eq_false_iff_ne]
    constructor
    · rintro ⟨ha, h | h⟩
      · obtain ⟨t, rfl, ht⟩ := (htmlSuffix_iff cs).mp h
        refine ⟨[a], t, rfl, by simp, ?_, ht⟩
        intro hm
        exact ha (List.mem_singleton.mp hm).symm
      · obtain ⟨mid, t, rfl, hne, hnl, ht⟩ := ih.mp h
        refine ⟨a :: mid, t, rfl, by simp, ?_, ht⟩
        intro hm
        rcases List.mem_cons.mp hm with h1 | h1
        · exact ha h1.symm
        · exact hnl h1
    · rintro ⟨mid, t, heq, hne, hnl, ht⟩
      rcases mid with _ | ⟨m, ms⟩
      · exact absurd rfl hne
      · rw [List.cons_append] at heq
        injection heq with h1 h2
        subst h1
        refine ⟨?_, ?_⟩
        · intro hEq
          exact hnl (List.mem_cons.mpr (Or.inl hEq.symm))
        · rcases ms with _ | ⟨m2, ms'⟩
          · left
            rw [h2]
            exact (htmlSuffix_iff _).mpr ⟨t, by simp, ht⟩
          · right
            apply ih.mpr
            refine ⟨m2 :: ms', t, h2, by simp, ?_, ht⟩
            intro hm
            exact hnl (List.mem_cons_of_mem _ hm)

lemma reMatch_iff_amended (s : String) :
    reMatchTranscript s = true ↔ matchesAmended s := by
  obtain ⟨cs⟩ := s
  unfold reMatchTranscript matchesAmended
  rcases cs with _ | ⟨a, _ | ⟨b, rest⟩⟩
  · simp
  · simp
  · simp only [Bool.and_eq_true, beq_iff_eq, dotPlusHtml_iff, List.cons.injEq]
    constructor
    · rintro ⟨⟨rfl, rfl⟩, mid, t, hr, h2, h3, h4⟩
      exact ⟨mid, t, ⟨rfl, rfl, hr⟩, h2, h3, h4⟩
    · rintro ⟨mid, t, ⟨rfl, rfl, hr⟩, h2, h3, h4⟩
      exact ⟨⟨rfl, rfl⟩, mid, t, hr, h2, h3, h4⟩

/-- Claim C6 (amended): inside the main region, an anchor carrying an
`href` value is added to the result set if and only if the value is the
literal prefix `cr`, then at least one character none of which is a
newline, then the extension `.html`, optionally followed by one trailing
newline — case-sensitively.  (The optional trailing newline and the
newline-free middle come from the regex `$` and `.` semantics.) -/
theorem index_pattern_amended (h : String) :
    h ∈ (IndexState.step ⟨true, []⟩
        (.startTag "a" [("href", some h)])).transcript_files
      ↔ matchesAmended h := by
  rw [mem_files_step, ← reMatch_iff_amended]
  simp [anchorAdds, dictGet]
